import Mathlib

/-!
Verification of the hashstorage-utils conversion and signing layer.

A shallow embedding of the two modules of the `hashstorage-utils` Rust crate
(`src/convert.rs` and `src/crypto.rs`) together with proofs of the stated
contracts.

Modelling conventions:
* A byte is a `Nat` (values below 256 where produced by the code); byte
  sequences are `List Nat`.
* A Rust string is represented by the list of bytes of its UTF-8 encoding;
  a hex string by its list of characters (`List Char`), which is faithful
  because hex strings are ASCII.
* A `Bigi<4>` multi-precision integer is a natural number below `2 ^ 256`;
  its `to_bytes` export is the 32-byte little-endian representation and
  `from_bytes` the little-endian interpretation, matching the `bigi` crate.
* Rust conversions that can panic (`try_into().unwrap()`, slicing) are
  embedded as `Option`-valued functions returning `none` exactly where the
  original would panic.
* External collaborators (the SHA-256 compression from the `sha2` crate, the
  ECDSA verifier and the scalar-multiplication `get_point` of `bigi_ecc`)
  are taken as function parameters: this layer only marshals data into and
  out of them.
-/

namespace HashstorageUtils

/-! Little-endian byte encodings -/

/-- Little-endian byte representation of `n` on exactly `len` bytes
(the export format used by `u64::to_le_bytes` and `Bigi::to_bytes`). -/
def toLeBytes : Nat → Nat → List Nat
  | _, 0 => []
  | n, len + 1 => n % 256 :: toLeBytes (n / 256) len

/-- Interpretation of a byte list as a little-endian natural number
(the import format used by `Bigi::from_bytes`). -/
def fromLeBytes : List Nat → Nat
  | [] => 0
  | b :: rest => b + 256 * fromLeBytes rest

/-! Definitions embedding `src/convert.rs` -/

/-- Rust `Vec::resize(L, 0)`: truncate to `L` elements or right-pad with zeros. -/
def vecResize (v : List Nat) (L : Nat) : List Nat :=
  if L ≤ v.length then v.take L else v ++ List.replicate (L - v.length) 0

/-- Embedding of `str_to_bytes_sized::<L>`: UTF-8 bytes of the string, resized to `L`
with zero fill, then converted to `[u8; L]` by a `try_into().unwrap()`
(embedded as the `Option`-valued length check). -/
def str_to_bytes_sized (L : Nat) (s : List Nat) : Option (List Nat) :=
  let v := vecResize s L
  if v.length = L then some v else none

/-- Validity of a byte sequence as UTF-8 (the check done by
`String::from_utf8`), following the standard byte-range table. -/
def validUtf8 : List Nat → Bool
  | [] => true
  | b :: rest =>
    if b ≤ 0x7F then validUtf8 rest
    else if 0xC2 ≤ b ∧ b ≤ 0xDF then
      match rest with
      | b2 :: r => (0x80 ≤ b2 && b2 ≤ 0xBF) && validUtf8 r
      | _ => false
    else if b = 0xE0 then
      match rest with
      | b2 :: b3 :: r =>
        (0xA0 ≤ b2 && b2 ≤ 0xBF) && (0x80 ≤ b3 && b3 ≤ 0xBF) && validUtf8 r
      | _ => false
    else if (0xE1 ≤ b ∧ b ≤ 0xEC) ∨ b = 0xEE ∨ b = 0xEF then
      match rest with
      | b2 :: b3 :: r =>
        (0x80 ≤ b2 && b2 ≤ 0xBF) && (0x80 ≤ b3 && b3 ≤ 0xBF) && validUtf8 r
      | _ => false
    else if b = 0xED then
      match rest with
      | b2 :: b3 :: r =>
        (0x80 ≤ b2 && b2 ≤ 0x9F) && (0x80 ≤ b3 && b3 ≤ 0xBF) && validUtf8 r
      | _ => false
    else if b = 0xF0 then
      match rest with
      | b2 :: b3 :: b4 :: r =>
        (0x90 ≤ b2 && b2 ≤ 0xBF) && (0x80 ≤ b3 && b3 ≤ 0xBF) &&
          (0x80 ≤ b4 && b4 ≤ 0xBF) && validUtf8 r
      | _ => false
    else if 0xF1 ≤ b ∧ b ≤ 0xF3 then
      match rest with
      | b2 :: b3 :: b4 :: r =>
        (0x80 ≤ b2 && b2 ≤ 0xBF) && (0x80 ≤ b3 && b3 ≤ 0xBF) &&
          (0x80 ≤ b4 && b4 ≤ 0xBF) && validUtf8 r
      | _ => false
    else if b = 0xF4 then
      match rest with
      | b2 :: b3 :: b4 :: r =>
        (0x80 ≤ b2 && b2 ≤ 0x8F) && (0x80 ≤ b3 && b3 ≤ 0xBF) &&
          (0x80 ≤ b4 && b4 ≤ 0xBF) && validUtf8 r
      | _ => false
    else false

/-- Embedding of `str_from_bytes`: strip trailing zero bytes (reverse, `skip_while`
zero, reverse back), then UTF-8-decode; the decode is embedded as the
validity check, returning the stripped bytes when they are valid UTF-8
and `none` where `String::from_utf8(...).unwrap()` would panic. -/
def str_from_bytes (bytes : List Nat) : Option (List Nat) :=
  let t := (bytes.reverse.dropWhile (· = 0)).reverse
  if validUtf8 t then some t else none

/-- Value of one hex digit character, as accepted by
`u8::from_str_radix(_, 16)`: `0`-`9`, `A`-`F` and `a`-`f`. -/
def hexDigit? (c : Char) : Option Nat :=
  if 48 ≤ c.toNat ∧ c.toNat ≤ 57 then some (c.toNat - 48)
  else if 65 ≤ c.toNat ∧ c.toNat ≤ 70 then some (c.toNat - 55)
  else if 97 ≤ c.toNat ∧ c.toNat ≤ 102 then some (c.toNat - 87)
  else none

/-- Total hex digit value (`0` for non-digits), used only to state
properties of the decoder. -/
def hexVal (c : Char) : Nat := (hexDigit? c).getD 0

/-- The bytes of the hex pairs of `cs` read left to right: the pair at
string positions `2i, 2i+1` parses to the byte at index `i`.  `none` when
a character is not a hex digit (the `unwrap` in `hex_to_bytes_vec`) or
the length is odd (the out-of-bounds slice `&hex[i..i+2]`). -/
def hexPairs : List Char → Option (List Nat)
  | [] => some []
  | [_] => none
  | c1 :: c2 :: rest =>
    match hexDigit? c1 with
    | none => none
    | some d1 =>
      match hexDigit? c2 with
      | none => none
      | some d2 =>
        match hexPairs rest with
        | none => none
        | some bs => some ((16 * d1 + d2) :: bs)

/-- Embedding of `hex_to_bytes_vec`: iterate over the pair start indices
`0, 2, ...` in reverse order and parse each two-character slice, i.e.
the left-to-right pair bytes in reversed order. -/
def hex_to_bytes_vec (cs : List Char) : Option (List Nat) :=
  (hexPairs cs).map List.reverse

/-- Embedding of `hex_to_bytes::<L>`: `hex_to_bytes_vec` followed by
`try_into().unwrap()` into `[u8; L]`, which panics unless the vector
length is exactly `L`. -/
def hex_to_bytes (L : Nat) (cs : List Char) : Option (List Nat) :=
  match hex_to_bytes_vec cs with
  | some v => if v.length = L then some v else none
  | none => none

/-- Uppercase hex character of the digit `d < 16`, as produced by the
`{:02X?}` format. -/
def hexCharOfDigit (d : Nat) : Char :=
  Char.ofNat (if d < 10 then 48 + d else 55 + d)

/-- The two-character `{:02X?}` rendering of a byte. -/
def byteToHexChars (b : Nat) : List Char :=
  [hexCharOfDigit (b / 16), hexCharOfDigit (b % 16)]

/-- Embedding of `hex_from_bytes`: iterate over the bytes in reverse order and render
each as two uppercase hex characters. -/
def hex_from_bytes (bytes : List Nat) : List Char :=
  (bytes.reverse.map byteToHexChars).flatten

/-- ASCII uppercasing of a character (`a`-`z` mapped to `A`-`Z`),
used to state the hex round-trip property. -/
def toUpperChar (c : Char) : Char :=
  if 97 ≤ c.toNat ∧ c.toNat ≤ 122 then Char.ofNat (c.toNat - 32) else c

/-- External `Bigi::<4>::to_bytes`: 32-byte little-endian export of the 256-bit
integer (external `bigi` crate). -/
def bigiToBytes (n : Nat) : List Nat := toLeBytes n 32

/-- External `Bigi::<4>::from_bytes`: little-endian import (external `bigi` crate). -/
def bigiFromBytes (bytes : List Nat) : Nat := fromLeBytes bytes

/-- Embedding of `private_key_to_bytes`: the first 32 bytes (`[..32]`) of the `Bigi`
byte export. -/
def private_key_to_bytes (b : Nat) : List Nat :=
  (bigiToBytes b).take 32

/-- Embedding of `private_key_from_bytes`: interpret a 32-byte array as a `Bigi<4>`;
the `&[u8; 32]` argument type is embedded as the length check. -/
def private_key_from_bytes (bytes : List Nat) : Option Nat :=
  if bytes.length = 32 then some (bigiFromBytes bytes) else none

/-- Embedding of `public_key_from_bytes`: split a 64-byte array into halves
`[..32]` and `[32..]` and build the point from the two little-endian
integers; the `&[u8; 64]` argument type is embedded as the length check. -/
def public_key_from_bytes (bytes : List Nat) : Option (Nat × Nat) :=
  if bytes.length = 64 then
    some (bigiFromBytes (bytes.take 32), bigiFromBytes (bytes.drop 32))
  else none

/-- Embedding of `signature_to_bytes`: first 32 bytes of `r`'s export followed by the
first 32 bytes of `s`'s export. -/
def signature_to_bytes (signature : Nat × Nat) : List Nat :=
  (bigiToBytes signature.1).take 32 ++ (bigiToBytes signature.2).take 32

/-- Embedding of `signature_from_bytes`: split a 64-byte array into halves `[..32]`
and `[32..]`, each interpreted little-endian; the `&[u8; 64]` argument
type is embedded as the length check. -/
def signature_from_bytes (bytes : List Nat) : Option (Nat × Nat) :=
  if bytes.length = 64 then
    some (bigiFromBytes (bytes.take 32), bigiFromBytes (bytes.drop 32))
  else none

/-! Definitions embedding `src/crypto.rs`.

The SHA-256 digest of the `sha2` crate and the ECDSA verifier and
`Schema::get_point` of `bigi_ecc` are external collaborators, passed as
function parameters. -/

/-- Embedding of `sha256_hash`: feed the bytes to the SHA-256 hasher and finalize
(the digest function itself is the external `sha2` collaborator). -/
def sha256_hash (sha256 : List Nat → List Nat) (bytes : List Nat) : List Nat :=
  sha256 bytes

/-- Embedding of `sha256_pack`: concatenate `[group, key, &version.to_le_bytes()[..],
data]` and hash the result with `sha256_hash`. -/
def sha256_pack (sha256 : List Nat → List Nat) (group key : List Nat)
    (version : Nat) (data : List Nat) : List Nat :=
  sha256_hash sha256 ([group, key, toLeBytes version 8, data].flatten)

/-- Embedding of `check_signature`: decode the signature pair and the public point,
compute the packed digest, and hand everything to the external ECDSA
verifier `ecdsaCheck` (point, digest, signature pair), which returns a
boolean verdict. -/
def check_signature (ecdsaCheck : Nat × Nat → List Nat → Nat × Nat → Bool)
    (sha256 : List Nat → List Nat) (signature publicKey group key : List Nat)
    (version : Nat) (data : List Nat) : Option Bool :=
  match signature_from_bytes signature, public_key_from_bytes publicKey with
  | some signaturePair, some publicPoint =>
    some (ecdsaCheck publicPoint (sha256_pack sha256 group key version data)
      signaturePair)
  | _, _ => none

/-- Embedding of `check_pair`: decode both keys, recompute the public point through the
schema's `get_point` scalar multiplication, and compare for equality. -/
def check_pair (getPoint : Nat → Nat × Nat)
    (privateKey publicKey : List Nat) : Option Bool :=
  match private_key_from_bytes privateKey, public_key_from_bytes publicKey with
  | some privateBigi, some publicPoint =>
    some (decide (publicPoint = getPoint privateBigi))
  | _, _ => none

/-! Little-endian encoding lemmas -/

theorem toLeBytes_length : ∀ (len n : Nat), (toLeBytes n len).length = len
  | 0, _ => rfl
  | len + 1, n => by simp [toLeBytes, toLeBytes_length len]

theorem fromLeBytes_toLeBytes :
    ∀ (len n : Nat), n < 256 ^ len → fromLeBytes (toLeBytes n len) = n
  | 0, n, h => by
    have : n = 0 := by simpa using h
    simp [this, toLeBytes, fromLeBytes]
  | len + 1, n, h => by
    have hdiv : n / 256 < 256 ^ len := by
      rw [Nat.div_lt_iff_lt_mul (by norm_num)]
      calc n < 256 ^ (len + 1) := h
        _ = 256 ^ len * 256 := by ring
    simp only [toLeBytes, fromLeBytes,
      fromLeBytes_toLeBytes len (n / 256) hdiv]
    omega

/-! Claim C1: the packed digest -/

/-- Claim C1: for 32-byte `group` and `key`, a 64-bit `version` and arbitrary
`data`, `sha256_pack` is the SHA-256 digest of
`group ∥ key ∥ little-endian-8-byte(version) ∥ data` — the version field
occupies exactly 8 bytes whose little-endian value is `version` — and it
is deterministic: identical inputs yield the identical digest. -/
theorem sha256_pack_spec (sha256 : List Nat → List Nat)
    (group key : List Nat) (version : Nat) (data : List Nat)
    (hg : group.length = 32) (hk : key.length = 32)
    (hv : version < 2 ^ 64) :
    sha256_pack sha256 group key version data
        = sha256 (group ++ key ++ toLeBytes version 8 ++ data)
      ∧ (toLeBytes version 8).length = 8
      ∧ fromLeBytes (toLeBytes version 8) = version
      ∧ ∀ g2 k2 v2 d2, g2 = group → k2 = key → v2 = version → d2 = data →
          sha256_pack sha256 g2 k2 v2 d2
            = sha256_pack sha256 group key version data := by
  have h64 : version < 256 ^ 8 := by
    have : (256 : Nat) ^ 8 = 2 ^ 64 := by norm_num
    omega
  refine ⟨?_, toLeBytes_length 8 version,
    fromLeBytes_toLeBytes 8 version h64, ?_⟩
  · simp [sha256_pack, sha256_hash]
  · rintro g2 k2 v2 d2 rfl rfl rfl rfl
    rfl

theorem sha256_pack_spec_witness :
    sha256_pack (fun bs => [bs.length]) (List.replicate 32 0)
        (List.replicate 32 1) 5 [7]
      = [List.length (List.replicate 32 0 ++ List.replicate 32 1
          ++ toLeBytes 5 8 ++ [7])]
    ∧ fromLeBytes (toLeBytes 5 8) = 5 := by
  have h := sha256_pack_spec (fun bs => [bs.length]) (List.replicate 32 0)
    (List.replicate 32 1) 5 [7] (by simp) (by simp) (by norm_num)
  exact ⟨h.1, h.2.2.1⟩

/-! Claim C2: private key round trip -/

/-- Claim C2: for every 256-bit integer `p`, decoding the 32-byte encoding of
`p` returns `p`. -/
theorem private_key_roundtrip (p : Nat) (hp : p < 2 ^ 256) :
    private_key_from_bytes (private_key_to_bytes p) = some p := by
  have hlen : (bigiToBytes p).length = 32 := toLeBytes_length 32 p
  have htake : (bigiToBytes p).take 32 = bigiToBytes p :=
    List.take_of_length_le (by omega)
  have hp' : p < 256 ^ 32 := by
    have : (256 : Nat) ^ 32 = 2 ^ 256 := by norm_num
    omega
  simp only [private_key_to_bytes, private_key_from_bytes, htake, hlen,
    if_pos]
  simp [bigiFromBytes, bigiToBytes, fromLeBytes_toLeBytes 32 p hp']

theorem private_key_roundtrip_witness :
    private_key_from_bytes (private_key_to_bytes 123456789)
      = some 123456789 :=
  private_key_roundtrip 123456789 (by norm_num)

/-! Claim C3: signature round trip -/

/-- Claim C3: for every pair `(r, s)` of 256-bit integers, decoding the 64-byte
encoding of the pair returns the same pair. -/
theorem signature_roundtrip (r s : Nat)
    (hr : r < 2 ^ 256) (hs : s < 2 ^ 256) :
    signature_from_bytes (signature_to_bytes (r, s)) = some (r, s) := by
  have hrlen : (bigiToBytes r).length = 32 := toLeBytes_length 32 r
  have hslen : (bigiToBytes s).length = 32 := toLeBytes_length 32 s
  have hrtake : (bigiToBytes r).take 32 = bigiToBytes r :=
    List.take_of_length_le (by omega)
  have hstake : (bigiToBytes s).take 32 = bigiToBytes s :=
    List.take_of_length_le (by omega)
  have hr' : r < 256 ^ 32 := by
    have : (256 : Nat) ^ 32 = 2 ^ 256 := by norm_num
    omega
  have hs' : s < 256 ^ 32 := by
    have : (256 : Nat) ^ 32 = 2 ^ 256 := by norm_num
    omega
  simp only [signature_to_bytes, signature_from_bytes, hrtake, hstake]
  rw [if_pos (by simp [hrlen, hslen]),
    List.take_left' hrlen, List.drop_left' hrlen]
  simp [bigiFromBytes, bigiToBytes, fromLeBytes_toLeBytes 32 r hr',
    fromLeBytes_toLeBytes 32 s hs']

theorem signature_roundtrip_witness :
    signature_from_bytes (signature_to_bytes (5, 7)) = some (5, 7) :=
  signature_roundtrip 5 7 (by norm_num) (by norm_num)

/-! Claims C6, C7, C10: string encoding -/

theorem vecResize_of_le {s : List Nat} {L : Nat} (h : s.length ≤ L) :
    vecResize s L = s ++ List.replicate (L - s.length) 0 := by
  unfold vecResize
  split
  · have : L = s.length := by omega
    simp [this]
  · rfl

/-- Claim C6: a string whose UTF-8 encoding has no trailing zero byte and fits
in `L` bytes survives the encode/decode round trip. -/
theorem str_roundtrip (L : Nat) (s : List Nat)
    (hutf : validUtf8 s = true) (hlen : s.length ≤ L)
    (hz : s.getLast? ≠ some 0) :
    (str_to_bytes_sized L s).bind str_from_bytes = some s := by
  have hres : vecResize s L = s ++ List.replicate (L - s.length) 0 :=
    vecResize_of_le hlen
  have hreslen : (vecResize s L).length = L := by
    rw [hres]; simp; omega
  have hstrip :
      (((vecResize s L).reverse.dropWhile (· = 0)).reverse : List Nat)
        = s := by
    rw [hres, List.reverse_append, List.reverse_replicate]
    rw [List.dropWhile_append_of_pos (by intro a ha; simp at ha; simp [ha])]
    cases hrev : s.reverse with
    | nil =>
      have : s = [] := by simpa using congrArg List.reverse hrev
      simp [this]
    | cons a t =>
      have ha : s.getLast? = some a := by
        rw [List.getLast?_eq_head?_reverse, hrev]; rfl
      have ha0 : a ≠ 0 := by
        intro h0
        exact hz (h0 ▸ ha)
      rw [List.dropWhile_cons_of_neg (by simpa using ha0), ← hrev]
      simp
  simp only [str_to_bytes_sized, if_pos hreslen, Option.some_bind,
    str_from_bytes, hstrip, hutf, if_pos]

theorem str_roundtrip_witness :
    (str_to_bytes_sized 5 [104, 105]).bind str_from_bytes
      = some [104, 105] :=
  str_roundtrip 5 [104, 105] (by decide) (by decide) (by decide)

/-- Claim C7, counterexample: on the 3-byte string `"abc"` with `L = 2` the
encoder does not fail — it returns the truncated 2-byte value. -/
theorem str_to_bytes_sized_no_error :
    2 < ([97, 98, 99] : List Nat).length
      ∧ str_to_bytes_sized 2 [97, 98, 99] = some [97, 98]
      ∧ str_to_bytes_sized 2 [97, 98, 99] ≠ none := by
  refine ⟨by decide, rfl, by decide⟩

/-- Claim C7, amended: for every string whose UTF-8 encoding exceeds `L`
bytes, `str_to_bytes_sized` does not reject the input: it returns the
first `L` bytes of the encoding (silent truncation). -/
theorem str_to_bytes_sized_oversized (L : Nat) (s : List Nat)
    (h : L < s.length) :
    str_to_bytes_sized L s = some (s.take L) := by
  have hv : vecResize s L = s.take L := by
    unfold vecResize
    rw [if_pos (Nat.le_of_lt h)]
  simp only [str_to_bytes_sized, hv]
  rw [if_pos (by simp [Nat.min_eq_left (Nat.le_of_lt h)])]

theorem str_to_bytes_sized_oversized_witness :
    str_to_bytes_sized 2 [97, 98, 99]
      = some (([97, 98, 99] : List Nat).take 2) :=
  str_to_bytes_sized_oversized 2 [97, 98, 99] (by decide)

/-- Claim C10: `str_to_bytes_sized` is total — for every byte string it
returns an `L`-byte value, the first `L` bytes of the encoding when the
encoding is at least `L` bytes long, and the encoding right-padded with
zeros otherwise. -/
theorem str_to_bytes_sized_total (L : Nat) (s : List Nat) :
    ∃ bs, str_to_bytes_sized L s = some bs ∧ bs.length = L
      ∧ bs = if L ≤ s.length then s.take L
             else s ++ List.replicate (L - s.length) 0 := by
  by_cases h : L ≤ s.length
  · refine ⟨s.take L, ?_, ?_, ?_⟩
    · have hv : vecResize s L = s.take L := by
        unfold vecResize
        rw [if_pos h]
      simp only [str_to_bytes_sized, hv]
      rw [if_pos (by simp [Nat.min_eq_left h])]
    · simp [Nat.min_eq_left h]
    · rw [if_pos h]
  · refine ⟨s ++ List.replicate (L - s.length) 0, ?_, ?_, ?_⟩
    · have hv : vecResize s L = s ++ List.replicate (L - s.length) 0 :=
        vecResize_of_le (by omega)
      simp only [str_to_bytes_sized, hv]
      rw [if_pos (by simp; omega)]
    · simp
      omega
    · rw [if_neg h]

/-! Claims C4, C5: hex encoding -/

theorem hexDigit_lt_16 {c : Char} {d : Nat} (h : hexDigit? c = some d) :
    d < 16 := by
  unfold hexDigit? at h
  split_ifs at h with h1 h2 h3 <;> simp_all <;> omega

theorem hexCharOfDigit_eq_toUpperChar {c : Char} {d : Nat}
    (h : hexDigit? c = some d) : hexCharOfDigit d = toUpperChar c := by
  have hc : Char.ofNat c.toNat = c := Char.ofNat_toNat c
  unfold hexDigit? at h
  split_ifs at h with h1 h2 h3 <;> simp only [Option.some.injEq] at h
  · subst h
    unfold hexCharOfDigit toUpperChar
    rw [if_pos (by omega), if_neg (by omega),
      show 48 + (c.toNat - 48) = c.toNat by omega]
    exact hc
  · subst h
    unfold hexCharOfDigit toUpperChar
    rw [if_neg (by omega), if_neg (by omega),
      show 55 + (c.toNat - 55) = c.toNat by omega]
    exact hc
  · subst h
    unfold hexCharOfDigit toUpperChar
    rw [if_neg (by omega), if_pos (by omega),
      show 55 + (c.toNat - 87) = c.toNat - 32 by omega]

theorem hexPairs_spec :
    ∀ (cs : List Char) (ps : List Nat), hexPairs cs = some ps →
      2 * ps.length = cs.length ∧
      ∀ i, i < ps.length →
        ps.getD i 0 = 16 * hexVal (cs.getD (2 * i) ' ')
          + hexVal (cs.getD (2 * i + 1) ' ')
  | [], ps, h => by
    simp only [hexPairs, Option.some.injEq] at h
    subst h
    simp
  | [c], ps, h => by simp [hexPairs] at h
  | c1 :: c2 :: rest, ps, h => by
    simp only [hexPairs] at h
    rcases e1 : hexDigit? c1 with _ | d1
    · rw [e1] at h
      simp at h
    rw [e1] at h
    rcases e2 : hexDigit? c2 with _ | d2
    · rw [e2] at h
      simp at h
    rw [e2] at h
    rcases e3 : hexPairs rest with _ | bs
    · rw [e3] at h
      simp at h
    rw [e3] at h
    simp only [Option.some.injEq] at h
    subst h
    obtain ⟨ihlen, ihidx⟩ := hexPairs_spec rest bs e3
    constructor
    · simp only [List.length_cons]
      omega
    · intro i hi
      cases i with
      | zero =>
        simp [hexVal, e1, e2]
      | succ i =>
        have ea : 2 * (i + 1) = 2 * i + 1 + 1 := by ring
        rw [List.getD_cons_succ, ea]
        simp only [List.getD_cons_succ]
        exact ihidx i (by simpa using hi)

theorem hexPairs_isSome :
    ∀ cs : List Char, cs.length % 2 = 0 →
      (∀ c ∈ cs, (hexDigit? c).isSome) → ∃ ps, hexPairs cs = some ps
  | [], _, _ => ⟨[], rfl⟩
  | [c], h2, _ => by simp at h2
  | c1 :: c2 :: rest, h2, hv => by
    obtain ⟨d1, e1⟩ := Option.isSome_iff_exists.mp (hv c1 (by simp))
    obtain ⟨d2, e2⟩ := Option.isSome_iff_exists.mp (hv c2 (by simp))
    have h2' : rest.length % 2 = 0 := by
      simp only [List.length_cons] at h2
      omega
    obtain ⟨ps, e3⟩ := hexPairs_isSome rest h2'
      (fun c hc => hv c (by simp [hc]))
    refine ⟨(16 * d1 + d2) :: ps, ?_⟩
    simp only [hexPairs]
    rw [e1, e2, e3]

theorem getD_reverse (l : List Nat) (i : Nat) (h : i < l.length) :
    l.reverse.getD i 0 = l.getD (l.length - 1 - i) 0 := by
  simp only [List.getD_eq_getElem?_getD]
  rw [List.getElem?_reverse h]

/-- Claim C4: on every even-length string of hex digits, `hex_to_bytes_vec`
succeeds and emits one byte per digit pair, least-significant first: the
byte at output index `i` is the value of the character pair at input
positions `len - 2i - 2, len - 2i - 1` (pairs consumed from the end of
the string toward the start); concretely,
`hex_to_bytes::<2>("C18B") = [0x8B, 0xC1]`. -/
theorem hex_to_bytes_vec_spec (cs : List Char)
    (heven : cs.length % 2 = 0)
    (hvalid : ∀ c ∈ cs, (hexDigit? c).isSome) :
    (∃ bs, hex_to_bytes_vec cs = some bs ∧ 2 * bs.length = cs.length ∧
      ∀ i, i < bs.length →
        bs.getD i 0 = 16 * hexVal (cs.getD (cs.length - 2 * i - 2) ' ')
          + hexVal (cs.getD (cs.length - 2 * i - 1) ' '))
    ∧ hex_to_bytes 2 (String.toList "C18B") = some [139, 193] := by
  refine ⟨?_, rfl⟩
  obtain ⟨ps, hps⟩ := hexPairs_isSome cs heven hvalid
  obtain ⟨hlen, hidx⟩ := hexPairs_spec cs ps hps
  refine ⟨ps.reverse, by simp [hex_to_bytes_vec, hps],
    by simpa using hlen, ?_⟩
  intro i hi
  simp only [List.length_reverse] at hi
  rw [getD_reverse ps i hi, hidx (ps.length - 1 - i) (by omega)]
  have e2 : cs.length - 2 * i - 2 = 2 * (ps.length - 1 - i) := by omega
  have e1 : cs.length - 2 * i - 1 = 2 * (ps.length - 1 - i) + 1 := by
    omega
  rw [e2, e1]

theorem hex_to_bytes_vec_spec_witness :
    ∃ bs, hex_to_bytes_vec (String.toList "C18B") = some bs ∧
      2 * bs.length = (String.toList "C18B").length ∧
      ∀ i, i < bs.length →
        bs.getD i 0
          = 16 * hexVal ((String.toList "C18B").getD
              ((String.toList "C18B").length - 2 * i - 2) ' ')
            + hexVal ((String.toList "C18B").getD
              ((String.toList "C18B").length - 2 * i - 1) ' ') :=
  (hex_to_bytes_vec_spec (String.toList "C18B") (by decide)
    (by decide)).1

theorem hexPairs_flatten :
    ∀ (cs : List Char) (ps : List Nat), hexPairs cs = some ps →
      (ps.map byteToHexChars).flatten = cs.map toUpperChar
  | [], ps, h => by
    simp only [hexPairs, Option.some.injEq] at h
    subst h
    simp
  | [c], ps, h => by simp [hexPairs] at h
  | c1 :: c2 :: rest, ps, h => by
    simp only [hexPairs] at h
    rcases e1 : hexDigit? c1 with _ | d1
    · rw [e1] at h
      simp at h
    rw [e1] at h
    rcases e2 : hexDigit? c2 with _ | d2
    · rw [e2] at h
      simp at h
    rw [e2] at h
    rcases e3 : hexPairs rest with _ | bs
    · rw [e3] at h
      simp at h
    rw [e3] at h
    simp only [Option.some.injEq] at h
    subst h
    have hd2 : d2 < 16 := hexDigit_lt_16 e2
    have hb : byteToHexChars (16 * d1 + d2)
        = [toUpperChar c1, toUpperChar c2] := by
      unfold byteToHexChars
      rw [show (16 * d1 + d2) / 16 = d1 by omega,
        show (16 * d1 + d2) % 16 = d2 by omega,
        hexCharOfDigit_eq_toUpperChar e1,
        hexCharOfDigit_eq_toUpperChar e2]
    simp only [List.map_cons, List.flatten_cons, hb,
      hexPairs_flatten rest bs e3]
    rfl

/-- Claim C5: decoding an even-length string of hex digits and re-encoding the
resulting bytes gives back the string with every digit uppercased. -/
theorem hex_roundtrip (cs : List Char)
    (heven : cs.length % 2 = 0)
    (hvalid : ∀ c ∈ cs, (hexDigit? c).isSome) :
    ∃ bs, hex_to_bytes_vec cs = some bs
      ∧ hex_from_bytes bs = cs.map toUpperChar := by
  obtain ⟨ps, hps⟩ := hexPairs_isSome cs heven hvalid
  refine ⟨ps.reverse, by simp [hex_to_bytes_vec, hps], ?_⟩
  rw [hex_from_bytes, List.reverse_reverse]
  exact hexPairs_flatten cs ps hps

theorem hex_roundtrip_witness :
    ∃ bs, hex_to_bytes_vec (String.toList "c18b") = some bs
      ∧ hex_from_bytes bs = (String.toList "c18b").map toUpperChar :=
  hex_roundtrip (String.toList "c18b") (by decide) (by decide)

/-! Claims C8, C9: signature verification and key-pair checking -/

/-- Claim C8: for 64-byte signature and public-key inputs, `check_signature`
returns a boolean and never fails: the result is exactly the external
ECDSA verifier's verdict on the decoded point, the packed digest and the
decoded `(r, s)` pair, so a well-formed but non-matching signature
produces `false`, not an error.  (Only malformed fixed-length inputs —
a wrong byte count — make the embedding return `none`.) -/
theorem check_signature_total
    (ecdsaCheck : Nat × Nat → List Nat → Nat × Nat → Bool)
    (sha256 : List Nat → List Nat)
    (signature publicKey group key : List Nat)
    (version : Nat) (data : List Nat)
    (hsig : signature.length = 64) (hpub : publicKey.length = 64) :
    check_signature ecdsaCheck sha256 signature publicKey group key
        version data
      = some (ecdsaCheck
          (bigiFromBytes (publicKey.take 32),
            bigiFromBytes (publicKey.drop 32))
          (sha256_pack sha256 group key version data)
          (bigiFromBytes (signature.take 32),
            bigiFromBytes (signature.drop 32))) := by
  simp [check_signature, signature_from_bytes, public_key_from_bytes,
    hsig, hpub]

theorem check_signature_total_witness :
    check_signature (fun _ _ _ => false) (fun _ => [])
        (List.replicate 64 0) (List.replicate 64 0)
        (List.replicate 32 0) (List.replicate 32 0) 1 [2]
      = some false :=
  check_signature_total (fun _ _ _ => false) (fun _ => [])
    (List.replicate 64 0) (List.replicate 64 0)
    (List.replicate 32 0) (List.replicate 32 0) 1 [2]
    (by simp) (by simp)

/-- Claim C9: for a 32-byte private key and a 64-byte public key,
`check_pair` returns `true` exactly when the point decoded from the
public-key bytes equals the point computed by the schema's
scalar-multiplication `get_point` from the integer decoded from the
private-key bytes. -/
theorem check_pair_spec (getPoint : Nat → Nat × Nat)
    (privateKey publicKey : List Nat)
    (hpriv : privateKey.length = 32) (hpub : publicKey.length = 64) :
    check_pair getPoint privateKey publicKey = some true ↔
      (bigiFromBytes (publicKey.take 32),
        bigiFromBytes (publicKey.drop 32))
        = getPoint (bigiFromBytes privateKey) := by
  simp [check_pair, private_key_from_bytes, public_key_from_bytes,
    hpriv, hpub]

theorem check_pair_spec_witness :
    check_pair (fun _ => (0, 0)) (List.replicate 32 0)
      (List.replicate 64 0) = some true :=
  (check_pair_spec (fun _ => (0, 0)) (List.replicate 32 0)
    (List.replicate 64 0) (by simp) (by simp)).mpr (by decide)

end HashstorageUtils
